import Mathlib

/-!
Shallow embedding of `datafusion/expr/src/expr_rewriter/mod.rs` (the
expression-rewriting core of DataFusion's logical-plan layer) together with
the external collaborators that module consumes (the tree-traversal
protocol, column resolution, type inference and plan construction), which
live elsewhere in the repository and are modelled from the specification.
-/

set_option maxHeartbeats 1000000

namespace DFRewriter

/-- Modelled from the spec: the closed set of Arrow data types this core
needs; the full Arrow type catalog is out of scope. -/
inductive DataType where
  | int8
  | int32
  | int64
  | float64
  | utf8
  | boolean
  | null
deriving DecidableEq, Repr

def DataType.render : DataType → String
  | .int8 => "Int8"
  | .int32 => "Int32"
  | .int64 => "Int64"
  | .float64 => "Float64"
  | .utf8 => "Utf8"
  | .boolean => "Boolean"
  | .null => "Null"

/-- Modelled from the spec: a structured identifier (1-3 parts) identifying
a relation; missing `datafusion_common::TableReference`. -/
structure TableReference where
  catalog : Option String
  schema : Option String
  table : String
deriving DecidableEq, Repr

/-- Modelled from the spec: partial-match comparison of table references
(a bare table name resolves against a schema-qualified one). -/
def TableReference.resolved_eq (self other : TableReference) : Bool :=
  self.table == other.table &&
    (match self.schema, other.schema with
     | some a, some b => a == b
     | _, _ => true) &&
    (match self.catalog, other.catalog with
     | some a, some b => a == b
     | _, _ => true)

def TableReference.display (t : TableReference) : String :=
  match t.catalog, t.schema with
  | some c, some s => c ++ "." ++ s ++ "." ++ t.table
  | _, some s => s ++ "." ++ t.table
  | _, _ => t.table

/-- Modelled from the spec: a column reference, an optional relation
qualifier plus a name; missing `datafusion_common::Column`. -/
structure Column where
  relation : Option TableReference
  name : String
deriving DecidableEq, Repr

def Column.new_unqualified (name : String) : Column :=
  ⟨none, name⟩

def Column.flat_name (c : Column) : String :=
  match c.relation with
  | some r => r.display ++ "." ++ c.name
  | none => c.name

/-- Modelled from the spec: a schema field carrying a name, an optional
relation qualifier and a data type. -/
structure Field where
  relation : Option TableReference
  name : String
  dtype : DataType
deriving DecidableEq, Repr

/-- Modelled from the spec: an ordered sequence of qualified fields;
missing `datafusion_common::DFSchema`. -/
structure DFSchema where
  fields : List Field
deriving DecidableEq, Repr

def DFSchema.field (s : DFSchema) (idx : Nat) : Field :=
  s.fields.getD idx ⟨none, "", .null⟩

/-- Modelled from the spec: error kinds surfaced by this core; missing
`datafusion_common::DataFusionError`. -/
inductive DataFusionError where
  | unknownColumn (name : String) (valid_fields : List String)
  | ambiguousReference (name : String) (qualifiers : List (Option TableReference))
  | coercionError (src : DataType) (dst : DataType)
  | planError (msg : String)
deriving DecidableEq, Repr

/-- Modelled from the spec: a scalar literal value, reduced to a data type
and an integer payload (literal semantics are out of scope). -/
structure ScalarValue where
  dtype : DataType
  val : Int
deriving DecidableEq, Repr

def ScalarValue.render (v : ScalarValue) : String :=
  v.dtype.render ++ "(" ++ toString v.val ++ ")"

/-- Expression tree: the node kinds the rewriter pattern-matches (column,
alias, cast, unnest, outer-reference, wildcard) plus representative opaque
kinds (literal, binary operator) reached only through the generic
traversal. Mirrors the variants of `Expr` used by the rewriter module. -/
inductive Expr where
  | column (c : Column)
  | literal (v : ScalarValue)
  | alias (expr : Expr) (relation : Option TableReference) (name : String)
  | binaryExpr (left : Expr) (op : String) (right : Expr)
  | cast (expr : Expr) (dtype : DataType)
  | unnest (expr : Expr)
  | outerReferenceColumn (dtype : DataType) (c : Column)
  | wildcard
deriving DecidableEq, Repr

def Expr.isAlias : Expr → Bool
  | .alias _ _ _ => true
  | _ => false

def Expr.try_as_col : Expr → Option Column
  | .column c => some c
  | _ => none

/-- Modelled from the spec: value-with-changed-flag wrapper; missing
`datafusion_common::tree_node::Transformed`. The tri-state traversal
control signal is always Continue in this module and is omitted. -/
structure Transformed (α : Type) where
  data : α
  transformed : Bool
deriving DecidableEq, Repr

def Transformed.yes {α : Type} (a : α) : Transformed α := ⟨a, true⟩

def Transformed.no {α : Type} (a : α) : Transformed α := ⟨a, false⟩

/-- Modelled from the spec: the tree-traversal protocol's post-order
rewrite (`TreeNode::transform`, i.e. `transform_up`): children are visited
depth-first left-to-right, then the hook is applied to the node rebuilt
from the new children; the composed changed flag is the OR of the node's
and the children's flags; a hook error aborts the traversal. -/
def Expr.transform (f : Expr → Except DataFusionError (Transformed Expr)) :
    Expr → Except DataFusionError (Transformed Expr)
  | .binaryExpr l op r => do
      let tl ← Expr.transform f l
      let tr ← Expr.transform f r
      let tn ← f (.binaryExpr tl.data op tr.data)
      pure ⟨tn.data, tl.transformed || tr.transformed || tn.transformed⟩
  | .alias e rel n => do
      let te ← Expr.transform f e
      let tn ← f (.alias te.data rel n)
      pure ⟨tn.data, te.transformed || tn.transformed⟩
  | .cast e t => do
      let te ← Expr.transform f e
      let tn ← f (.cast te.data t)
      pure ⟨tn.data, te.transformed || tn.transformed⟩
  | .unnest e => do
      let te ← Expr.transform f e
      let tn ← f (.unnest te.data)
      pure ⟨tn.data, te.transformed || tn.transformed⟩
  | e => f e

/-- Sequential collection of fallible results, mirroring Rust's
`collect::<Result<Vec<_>>>()`: stops at the first error, otherwise
returns the list of successes in order. -/
def collectExcept {ε α : Type} : List (Except ε α) → Except ε (List α)
  | [] => .ok []
  | x :: xs => do
      let a ← x
      let as ← collectExcept xs
      pure (a :: as)

/-- Modelled from the spec: the expression's canonical textual rendering
(`schema_name` / display, an external expression capability); used as the
name component of a computed expression's qualified name. -/
def Expr.schema_name : Expr → String
  | .column c => c.flat_name
  | .literal v => v.render
  | .alias _ _ n => n
  | .binaryExpr l op r => l.schema_name ++ " " ++ op ++ " " ++ r.schema_name
  | .cast e t => "CAST(" ++ e.schema_name ++ " AS " ++ t.render ++ ")"
  | .unnest e => "UNNEST(" ++ e.schema_name ++ ")"
  | .outerReferenceColumn _ c => "outer_ref(" ++ c.flat_name ++ ")"
  | .wildcard => "*"

/-- Modelled from the spec: `Expr::qualified_name`, an external expression
capability: a column keeps its own relation and name, an alias keeps its
saved relation and name, and any computed expression's name is its
canonical textual rendering with no relation. -/
def Expr.qualified_name : Expr → Option TableReference × String
  | .column c => (c.relation, c.name)
  | .alias _ rel n => (rel, n)
  | e => (none, e.schema_name)

/-- Modelled from the spec: `Expr::alias_qualified`, wrapping an
expression in an alias carrying the given relation and name. -/
def Expr.alias_qualified (e : Expr) (relation : Option TableReference)
    (name : String) : Expr :=
  .alias e relation name

/-- Modelled from the spec: field lookup for a column reference inside a
schema: the name must match, and a qualifier on the column must resolve
against the field's qualifier (a qualified column never matches an
unqualified field). -/
def Field.matchesColumn (c : Column) (f : Field) : Bool :=
  f.name == c.name &&
    (match c.relation with
     | none => true
     | some q =>
       match f.relation with
       | none => false
       | some fq => q.resolved_eq fq)

/-- Modelled from the spec: `Expr::get_type` (`ExprSchemable`), the
external type-inference capability, reduced to the cases this core
observes; binary-operator result typing is coarsely modelled by the left
operand's type since the full coercion rules are out of scope. -/
def Expr.get_type (e : Expr) (s : DFSchema) : Except DataFusionError DataType :=
  match e with
  | .column c =>
      match s.fields.find? (Field.matchesColumn c) with
      | some f => .ok f.dtype
      | none => .error (.unknownColumn c.name (s.fields.map Field.name))
  | .literal v => .ok v.dtype
  | .alias inner _ _ => inner.get_type s
  | .binaryExpr l _ _ => l.get_type s
  | .cast _ t => .ok t
  | .unnest inner => inner.get_type s
  | .outerReferenceColumn t _ => .ok t
  | .wildcard => .ok .null

/-- Modelled from the spec: the external cast-validity oracle
(`can_cast_types`); the Arrow cast rules are out of scope and are
modelled permissively. -/
def can_cast_types (_src _dst : DataType) : Bool := true

/-- Modelled from the spec: `Expr::cast_to`, the external casting
capability: an expression already of the target type is returned as-is,
otherwise it is wrapped in an explicit cast node when a cast exists,
and a coercion error is raised when none does. -/
def Expr.cast_to (e : Expr) (t : DataType) (s : DFSchema) :
    Except DataFusionError Expr := do
  let this_type ← e.get_type s
  if this_type = t then pure e
  else if can_cast_types this_type t then pure (.cast e t)
  else .error (.coercionError this_type t)

/-- Modelled from the spec: all fields of one candidate-schema group
(across every schema of the group) matching a column reference. -/
def groupMatches (c : Column) (group : List DFSchema) : List Field :=
  (group.map (fun s => s.fields.filter (Field.matchesColumn c))).flatten

/-- Modelled from the spec: matched fields are mutually equal under the
using-sets when some using-set contains them all (columns equated by a
USING join clause are exempt from ambiguity). -/
def allInSomeUsingSet (fs : List Field)
    (using_columns : List (List Column)) : Bool :=
  using_columns.any (fun set =>
    fs.all (fun f => set.contains ⟨f.relation, f.name⟩))

/-- Modelled from the spec: resolution of a column against the ordered
candidate-schema groups: zero matches in a group falls through to the
next group; exactly one match succeeds with the fully qualified column
built from the field; several matches succeed with the first match when
all are equated by a using-set and are an ambiguous-reference error
otherwise; exhausting all groups yields no result. -/
def resolveInGroups (c : Column) (using_columns : List (List Column)) :
    List (List DFSchema) → Option (Except DataFusionError Column)
  | [] => none
  | g :: gs =>
      match groupMatches c g with
      | [] => resolveInGroups c using_columns gs
      | [f] => some (.ok ⟨f.relation, f.name⟩)
      | f :: rest =>
          if allInSomeUsingSet (f :: rest) using_columns then
            some (.ok ⟨f.relation, f.name⟩)
          else
            some (.error (.ambiguousReference c.name
              ((f :: rest).map Field.relation)))

/-- Modelled from the spec: a field's displayed qualified name, used in
unknown-column diagnostics. -/
def Field.flat_name (f : Field) : String :=
  Column.flat_name ⟨f.relation, f.name⟩

/-- Modelled from the spec:
`Column::normalize_with_schemas_and_ambiguity_check` (missing
`datafusion_common` code): candidate-schema groups are searched in order
(innermost first) and exhausting every group with zero matches is an
unknown-column error listing the valid field names of the innermost
group. -/
def Column.normalize_with_schemas_and_ambiguity_check (c : Column)
    (schemas : List (List DFSchema)) (using_columns : List (List Column)) :
    Except DataFusionError Column :=
  match resolveInGroups c using_columns schemas with
  | some r => r
  | none =>
      .error (.unknownColumn c.name
        (((schemas.headD []).map (fun s => s.fields.map Field.flat_name)).flatten))

/-- Logical plan nodes: a projection owns its expression list, its input
and its computed output schema; the other kinds this module distinguishes
(filter, join, table scan, limit, statement, and a representative
non-exempt kind, aggregate) are reduced to their output schema, which is
all the rewriter observes of them. -/
inductive LogicalPlan where
  | projection (exprs : List Expr) (input : LogicalPlan) (schema : DFSchema)
  | filter (schema : DFSchema)
  | join (schema : DFSchema)
  | tableScan (schema : DFSchema)
  | limit (schema : DFSchema)
  | statement (schema : DFSchema)
  | aggregate (schema : DFSchema)
deriving DecidableEq, Repr

def LogicalPlan.schema : LogicalPlan → DFSchema
  | .projection _ _ s => s
  | .filter s => s
  | .join s => s
  | .tableScan s => s
  | .limit s => s
  | .statement s => s
  | .aggregate s => s

/-- Modelled from the spec: `LogicalPlanBuilder::normalize` (missing
plan-builder code): resolves a column against the single plan node's
declared output schema, as one candidate-schema group with no
using-columns. -/
def LogicalPlanBuilder.normalize (plan : LogicalPlan) (c : Column) :
    Except DataFusionError Column :=
  c.normalize_with_schemas_and_ambiguity_check [[plan.schema]] []

/-- Modelled from the spec: the schema a projection computes from its
expression list over its input (each expression contributes its inferred
type and its qualified name), as `Projection::try_new` does. -/
def exprlist_to_fields (exprs : List Expr) (input : LogicalPlan) :
    Except DataFusionError (List Field) :=
  collectExcept (exprs.map (fun e =>
    (e.get_type input.schema).map (fun t =>
      ⟨e.qualified_name.1, e.qualified_name.2, t⟩)))

/-- Modelled from the spec: `Projection::try_new` (missing logical-plan
code), already wrapped into `LogicalPlan::Projection`: builds a
projection node over the input with the schema computed from the
expression list, propagating any type-inference failure. -/
def Projection.try_new (exprs : List Expr) (input : LogicalPlan) :
    Except DataFusionError LogicalPlan :=
  (exprlist_to_fields exprs input).map (fun fs =>
    .projection exprs input ⟨fs⟩)

/-- Sort expression (source name `Sort`, renamed because `Sort` is a Lean
keyword): an expression with the ascending and nulls-first flags. -/
structure SortExpr where
  expr : Expr
  asc : Bool
  nulls_first : Bool
deriving DecidableEq, Repr

def SortExpr.new (expr : Expr) (asc nulls_first : Bool) : SortExpr :=
  ⟨expr, asc, nulls_first⟩

/-! Source functions of `expr_rewriter/mod.rs`. -/

/-- Per-node hook of `normalize_col`: a column node is replaced (marked
changed) by the plan-normalized column, every other node is left as-is. -/
def normalizeColPlanStep (plan : LogicalPlan) (e : Expr) :
    Except DataFusionError (Transformed Expr) :=
  match e with
  | .column c =>
      (LogicalPlanBuilder.normalize plan c).map (fun col =>
        Transformed.yes (.column col))
  | e => .ok (Transformed.no e)

/-- `normalize_col`: recursively normalize all column expressions of the
tree against the plan. -/
def normalize_col (expr : Expr) (plan : LogicalPlan) :
    Except DataFusionError Expr :=
  (Expr.transform (normalizeColPlanStep plan) expr).map Transformed.data

/-- Per-node hook of `normalize_col_with_schemas_and_ambiguity_check`:
a column node is replaced (marked changed) by its normalization against
the candidate-schema groups, every other node is left as-is. -/
def normalizeColStep (schemas : List (List DFSchema))
    (using_columns : List (List Column)) (e : Expr) :
    Except DataFusionError (Transformed Expr) :=
  match e with
  | .column c =>
      (c.normalize_with_schemas_and_ambiguity_check schemas using_columns).map
        (fun col => Transformed.yes (.column col))
  | e => .ok (Transformed.no e)

/-- `normalize_col_with_schemas_and_ambiguity_check`: a root unnest
wrapper is peeled, its inner expression normalized recursively and the
result re-wrapped; otherwise the column-normalizing hook is run over the
whole tree. -/
def normalize_col_with_schemas_and_ambiguity_check (expr : Expr)
    (schemas : List (List DFSchema)) (using_columns : List (List Column)) :
    Except DataFusionError Expr :=
  match expr with
  | .unnest e =>
      (normalize_col_with_schemas_and_ambiguity_check e schemas
        using_columns).map Expr.unnest
  | e => (Expr.transform (normalizeColStep schemas using_columns) e).map
      Transformed.data

/-- `normalize_cols`: elementwise `normalize_col`, collected as Rust's
`collect::<Result<_>>` does (first error wins, no partial list). -/
def normalize_cols (exprs : List Expr) (plan : LogicalPlan) :
    Except DataFusionError (List Expr) :=
  collectExcept (exprs.map (fun e => normalize_col e plan))

/-- `normalize_sorts`: normalize each sort's expression against the plan
and rebuild the sort with its original asc and nulls-first flags. -/
def normalize_sorts (sorts : List SortExpr) (plan : LogicalPlan) :
    Except DataFusionError (List SortExpr) :=
  collectExcept (sorts.map (fun s =>
    (normalize_col s.expr plan).map (fun e =>
      SortExpr.new e s.asc s.nulls_first)))

/-- `replace_col`: replace column expressions according to an explicit
mapping (the source's hash map becomes an association list). -/
def replace_col (expr : Expr) (replace_map : List (Column × Column)) :
    Except DataFusionError Expr :=
  (Expr.transform (fun e =>
    match e with
    | .column c =>
        match (replace_map.find? (fun p => p.1 = c)).map Prod.snd with
        | some new_c => .ok (Transformed.yes (.column new_c))
        | none => .ok (Transformed.no (.column c))
    | e => .ok (Transformed.no e)) expr).map Transformed.data

/-- Per-node hook of `unnormalize_col`: every column node is replaced
(marked changed) by an unqualified column of the same name. -/
def unnormalizeStep (e : Expr) : Except DataFusionError (Transformed Expr) :=
  match e with
  | .column c => .ok (Transformed.yes (.column (Column.new_unqualified c.name)))
  | e => .ok (Transformed.no e)

/-- `unnormalize_col`: strip the qualifier from every column expression of
the tree. The error branch models the source's infallibility assertion
(`expect("Unnormalize is infallible")`) and is proven unreachable. -/
def unnormalize_col (expr : Expr) : Expr :=
  match Expr.transform unnormalizeStep expr with
  | .ok t => t.data
  | .error _ => expr

/-- `unnormalize_cols`: elementwise `unnormalize_col`. -/
def unnormalize_cols (exprs : List Expr) : List Expr :=
  exprs.map unnormalize_col

/-- Per-node hook of `strip_outer_reference`: every outer-reference node
is replaced (marked changed) by its inner column. -/
def stripOuterStep (e : Expr) : Except DataFusionError (Transformed Expr) :=
  match e with
  | .outerReferenceColumn _ c => .ok (Transformed.yes (.column c))
  | e => .ok (Transformed.no e)

/-- `strip_outer_reference`: remove every outer-reference wrapper,
returning the inner column. The error branch models the source's
infallibility assertion and is proven unreachable. -/
def strip_outer_reference (expr : Expr) : Expr :=
  match Expr.transform stripOuterStep expr with
  | .ok t => t.data
  | .error _ => expr

/-- Position-wise body of `coerce_exprs_for_schema`: when the inferred
type already equals the target field type the expression is kept;
otherwise an alias has its inner expression cast and the alias name
re-applied, a wildcard is left untouched, and anything else is cast. -/
def coercePos (src_schema dst_schema : DFSchema) (idx : Nat) (expr : Expr) :
    Except DataFusionError Expr := do
  let new_type := (dst_schema.field idx).dtype
  let cur_type ← expr.get_type src_schema
  if new_type ≠ cur_type then
    match expr with
    | .alias inner _ name =>
        (inner.cast_to new_type src_schema).map (fun ce =>
          .alias ce none name)
    | .wildcard => pure expr
    | e => e.cast_to new_type src_schema
  else
    pure expr

/-- `coerce_exprs_for_schema`: enumerate the expressions and coerce each
position against the destination schema, collecting as Rust's
`collect::<Result<_>>` does. -/
def coerce_exprs_for_schema (exprs : List Expr) (src_schema dst_schema : DFSchema) :
    Except DataFusionError (List Expr) :=
  collectExcept (exprs.enum.map (fun p => coercePos src_schema dst_schema p.1 p.2))

/-- Branch of `coerce_plan_expr_for_schema` for every non-projection
plan: the plan's output columns are coerced as a fresh expression list
and a projection is added above the plan only when some coerced entry is
no longer a plain column reference. -/
def coercePlanOther (plan : LogicalPlan) (schema : DFSchema) :
    Except DataFusionError LogicalPlan :=
  coerce_exprs_for_schema
      (plan.schema.fields.map (fun f => Expr.column ⟨f.relation, f.name⟩))
      plan.schema schema >>=
    fun new_exprs =>
      if new_exprs.any (fun expr => expr.try_as_col.isNone) then
        Projection.try_new new_exprs plan
      else
        pure plan

/-- `coerce_plan_expr_for_schema`: a projection has its expression list
coerced in place over the same input (special-cased to avoid stacking
projections); any other plan goes through `coercePlanOther`. -/
def coerce_plan_expr_for_schema (plan : LogicalPlan) (schema : DFSchema) :
    Except DataFusionError LogicalPlan :=
  match plan with
  | .projection exprs input _ =>
      coerce_exprs_for_schema exprs input.schema schema >>=
        fun new_exprs => Projection.try_new new_exprs input
  | plan => coercePlanOther plan schema

/-- `unalias`: recursively strip alias wrappers down to the innermost
non-alias expression. -/
def unalias : Expr → Expr
  | .alias e _ _ => unalias e
  | e => e

/-- `NamePreserver`: keeps the name of rewritten expressions stable so a
plan node's output schema does not change under optimization. -/
structure NamePreserver where
  use_alias : Bool

/-- `SavedName`: either the qualified name captured before a rewrite, or
nothing when the expression's name need not be preserved. -/
inductive SavedName where
  | saved (relation : Option TableReference) (name : String)
  | none
deriving DecidableEq, Repr

/-- `NamePreserver::new`: the expressions of filter, join, table-scan,
limit and statement plans do not contribute to their output schema, so
the preserver built from those kinds is inert. -/
def NamePreserver.new (plan : LogicalPlan) : NamePreserver :=
  ⟨match plan with
   | .filter _ | .join _ | .tableScan _ | .limit _ | .statement _ => false
   | _ => true⟩

/-- `NamePreserver::new_for_projection`: always uses aliases. -/
def NamePreserver.new_for_projection : NamePreserver :=
  ⟨true⟩

/-- `NamePreserver::save`: capture the expression's qualified name when
aliases are in use. -/
def NamePreserver.save (np : NamePreserver) (expr : Expr) : SavedName :=
  if np.use_alias then
    SavedName.saved expr.qualified_name.1 expr.qualified_name.2
  else
    SavedName.none

/-- `SavedName::restore`: re-alias the rewritten expression with the saved
relation and name when its qualified name changed, otherwise return it
as-is; a missing saved name returns the expression unchanged. -/
def SavedName.restore (s : SavedName) (expr : Expr) : Expr :=
  match s with
  | .saved relation name =>
      if expr.qualified_name.1 ≠ relation ∨ expr.qualified_name.2 ≠ name then
        expr.alias_qualified relation name
      else
        expr
  | .none => expr

/-- Spec-side description of the unnormalizer, written from the spec's
words for the refinement claim about `unnormalize_col`: replace every
column reference by an unqualified one of the same name, recurse
structurally everywhere else, and keep the tree's shape. -/
def stripColQualifiers : Expr → Expr
  | .column c => .column ⟨Option.none, c.name⟩
  | .alias e rel n => .alias (stripColQualifiers e) rel n
  | .binaryExpr l op r => .binaryExpr (stripColQualifiers l) op (stripColQualifiers r)
  | .cast e t => .cast (stripColQualifiers e) t
  | .unnest e => .unnest (stripColQualifiers e)
  | e => e

/-! Helper lemmas shared by the claim theorems. -/

@[simp]
theorem exceptOkBind {ε α β : Type} (a : α) (g : α → Except ε β) :
    (Except.ok a >>= g : Except ε β) = g a := rfl

@[simp]
theorem exceptErrorBind {ε α β : Type} (er : ε) (g : α → Except ε β) :
    (Except.error er >>= g : Except ε β) = Except.error er := rfl

@[simp]
theorem exceptMapOk {ε α β : Type} (f : α → β) (a : α) :
    (Except.map f (Except.ok a) : Except ε β) = Except.ok (f a) := rfl

@[simp]
theorem exceptMapError {ε α β : Type} (f : α → β) (er : ε) :
    (Except.map f (Except.error er) : Except ε β) = Except.error er := rfl

theorem collectExcept_cons_ok {ε α : Type} {x : Except ε α}
    {xs : List (Except ε α)} {rs : List α} :
    collectExcept (x :: xs) = .ok rs ↔
      ∃ a as, x = .ok a ∧ collectExcept xs = .ok as ∧ rs = a :: as := by
  constructor
  · intro h
    cases x with
    | error er => simp [collectExcept] at h
    | ok a =>
        cases hxs : collectExcept xs with
        | error er => simp [collectExcept, hxs, pure, Except.pure] at h
        | ok as =>
            simp [collectExcept, hxs, pure, Except.pure] at h
            exact ⟨a, as, rfl, rfl, h.symm⟩
  · rintro ⟨a, as, hx, hxs, hrs⟩
    subst hx; subst hrs
    simp [collectExcept, hxs, pure, Except.pure]

theorem collectExcept_cons_error {ε α : Type} {x : Except ε α}
    {xs : List (Except ε α)} {er : ε} :
    collectExcept (x :: xs) = .error er ↔
      x = .error er ∨ (∃ a, x = .ok a ∧ collectExcept xs = .error er) := by
  constructor
  · intro h
    cases x with
    | error er' =>
        simp [collectExcept] at h
        exact Or.inl (by rw [h])
    | ok a =>
        cases hxs : collectExcept xs with
        | error er' =>
            simp [collectExcept, hxs] at h
            refine Or.inr ⟨a, rfl, ?_⟩
            exact congrArg Except.error h
        | ok as => simp [collectExcept, hxs, pure, Except.pure] at h
  · rintro (h | ⟨a, hx, hxs⟩)
    · subst h; simp [collectExcept]
    · subst hx; simp [collectExcept, hxs]

theorem collectExcept_ok_length {ε α : Type} :
    ∀ {xs : List (Except ε α)} {rs : List α},
      collectExcept xs = .ok rs → rs.length = xs.length := by
  intro xs
  induction xs with
  | nil =>
      intro rs h
      simp [collectExcept] at h
      simp [h]
  | cons x xs ih =>
      intro rs h
      obtain ⟨a, as, _, hxs, hrs⟩ := collectExcept_cons_ok.mp h
      subst hrs
      simp [ih hxs]

theorem collectExcept_ok_get {ε α : Type} :
    ∀ {xs : List (Except ε α)} {rs : List α},
      collectExcept xs = .ok rs →
      ∀ i (h : i < xs.length) (h' : i < rs.length), xs[i] = .ok rs[i] := by
  intro xs
  induction xs with
  | nil => intro rs _ i h; exact absurd h (by simp)
  | cons x xs ih =>
      intro rs hc i h h'
      obtain ⟨a, as, hx, hxs, hrs⟩ := collectExcept_cons_ok.mp hc
      subst hrs; subst hx
      cases i with
      | zero => rfl
      | succ j =>
          exact ih hxs j (by simpa using h) (by simpa using h')

theorem collectExcept_ok_of_all {ε α : Type} :
    ∀ {xs : List (Except ε α)},
      (∀ x ∈ xs, ∃ a, x = .ok a) → ∃ rs, collectExcept xs = .ok rs := by
  intro xs
  induction xs with
  | nil => intro _; exact ⟨[], rfl⟩
  | cons x xs ih =>
      intro h
      obtain ⟨a, ha⟩ := h x (by simp)
      obtain ⟨as, has⟩ := ih (fun y hy => h y (by simp [hy]))
      exact ⟨a :: as, collectExcept_cons_ok.mpr ⟨a, as, ha, has, rfl⟩⟩

theorem collectExcept_error_first {ε α : Type} :
    ∀ {xs : List (Except ε α)} {er : ε},
      collectExcept xs = .error er →
      ∃ i, ∃ (h : i < xs.length), xs[i] = .error er ∧
        ∀ j (hj : j < i), ∃ a, xs.get ⟨j, Nat.lt_trans hj h⟩ = .ok a := by
  intro xs
  induction xs with
  | nil => intro er h; simp [collectExcept] at h
  | cons x xs ih =>
      intro er h
      rcases collectExcept_cons_error.mp h with hx | ⟨a, hx, hxs⟩
      · exact ⟨0, by simp, hx, fun j hj => absurd hj (Nat.not_lt_zero j)⟩
      · obtain ⟨i, hi, hie, hprev⟩ := ih hxs
        refine ⟨i + 1, by simpa using Nat.succ_lt_succ hi, by simpa using hie, ?_⟩
        intro j hj
        cases j with
        | zero => exact ⟨a, hx⟩
        | succ k =>
            obtain ⟨b, hb⟩ := hprev k (Nat.lt_of_succ_lt_succ hj)
            exact ⟨b, by simpa using hb⟩

theorem transform_total (f : Expr → Except DataFusionError (Transformed Expr))
    (hf : ∀ x, ∃ t, f x = .ok t) :
    ∀ e, ∃ t, Expr.transform f e = .ok t := by
  intro e
  induction e with
  | column c => exact hf _
  | literal v => exact hf _
  | wildcard => exact hf _
  | outerReferenceColumn t c => exact hf _
  | «alias» e rel n ih =>
      obtain ⟨te, hte⟩ := ih
      obtain ⟨tn, htn⟩ := hf (.alias te.data rel n)
      exact ⟨⟨tn.data, te.transformed || tn.transformed⟩,
        by simp [Expr.transform, hte, htn, pure, Except.pure]⟩
  | cast e t ih =>
      obtain ⟨te, hte⟩ := ih
      obtain ⟨tn, htn⟩ := hf (.cast te.data t)
      exact ⟨⟨tn.data, te.transformed || tn.transformed⟩,
        by simp [Expr.transform, hte, htn, pure, Except.pure]⟩
  | unnest e ih =>
      obtain ⟨te, hte⟩ := ih
      obtain ⟨tn, htn⟩ := hf (.unnest te.data)
      exact ⟨⟨tn.data, te.transformed || tn.transformed⟩,
        by simp [Expr.transform, hte, htn, pure, Except.pure]⟩
  | binaryExpr l op r ihl ihr =>
      obtain ⟨tl, htl⟩ := ihl
      obtain ⟨tr, htr⟩ := ihr
      obtain ⟨tn, htn⟩ := hf (.binaryExpr tl.data op tr.data)
      exact ⟨⟨tn.data, tl.transformed || tr.transformed || tn.transformed⟩,
        by simp [Expr.transform, htl, htr, htn, pure, Except.pure]⟩

theorem unnormalize_transform_eq (e : Expr) :
    ∃ b, Expr.transform unnormalizeStep e = .ok ⟨stripColQualifiers e, b⟩ := by
  induction e with
  | column c => exact ⟨true, rfl⟩
  | literal v => exact ⟨false, rfl⟩
  | wildcard => exact ⟨false, rfl⟩
  | outerReferenceColumn t c => exact ⟨false, rfl⟩
  | «alias» e rel n ih =>
      obtain ⟨b, hb⟩ := ih
      exact ⟨b || false, by
        simp [Expr.transform, hb, unnormalizeStep, stripColQualifiers, Transformed.no, pure, Except.pure]⟩
  | cast e t ih =>
      obtain ⟨b, hb⟩ := ih
      exact ⟨b || false, by
        simp [Expr.transform, hb, unnormalizeStep, stripColQualifiers, Transformed.no, pure, Except.pure]⟩
  | unnest e ih =>
      obtain ⟨b, hb⟩ := ih
      exact ⟨b || false, by
        simp [Expr.transform, hb, unnormalizeStep, stripColQualifiers, Transformed.no, pure, Except.pure]⟩
  | binaryExpr l op r ihl ihr =>
      obtain ⟨bl, hbl⟩ := ihl
      obtain ⟨br, hbr⟩ := ihr
      exact ⟨bl || br || false, by
        simp [Expr.transform, hbl, hbr, unnormalizeStep, stripColQualifiers, Transformed.no, pure, Except.pure]⟩

theorem unalias_not_alias (e : Expr) : (unalias e).isAlias = false := by
  induction e with
  | «alias» e rel n ih => simpa [unalias] using ih
  | column c => rfl
  | literal v => rfl
  | wildcard => rfl
  | outerReferenceColumn t c => rfl
  | cast e t ih => rfl
  | unnest e ih => rfl
  | binaryExpr l op r ihl ihr => rfl

/-- C7: `unnormalize_col`, `strip_outer_reference` and `unalias` are total
over every expression tree: the traversals underlying the first two always
return a successful result (the source's infallibility assertions are
unreachable), and `unalias` terminates on a non-alias expression. -/
theorem rewrite_infallible_ops_total (e : Expr) :
    (∃ t, Expr.transform unnormalizeStep e = .ok t) ∧
    (∃ t, Expr.transform stripOuterStep e = .ok t) ∧
    (unalias e).isAlias = false := by
  refine ⟨?_, ?_, unalias_not_alias e⟩
  · exact transform_total unnormalizeStep
      (fun x => by cases x <;> exact ⟨_, rfl⟩) e
  · exact transform_total stripOuterStep
      (fun x => by cases x <;> exact ⟨_, rfl⟩) e

/-- C8: `unnormalize_col` acts exactly as the spec-side structural map
`stripColQualifiers`: every column reference loses its qualifier and keeps
its name, every other node kind is rebuilt unchanged, and the tree's shape
is preserved. -/
theorem unnormalize_col_strips_qualifiers (e : Expr) :
    unnormalize_col e = stripColQualifiers e := by
  obtain ⟨b, hb⟩ := unnormalize_transform_eq e
  simp [unnormalize_col, hb]

/-- C1: restoring through a name-saving `NamePreserver` (`use_alias` set)
preserves the saved expression's qualified name: the restored expression's
qualified name equals the original's, the rewritten expression is wrapped
in an alias carrying the original relation and name exactly when its
qualified name differs from the saved one, and is returned as-is
otherwise. -/
theorem name_preserver_restore_preserves_qualified_name
    (np : NamePreserver) (e e' : Expr) (h : np.use_alias = true) :
    ((np.save e).restore e').qualified_name = e.qualified_name ∧
    (e'.qualified_name ≠ e.qualified_name →
      (np.save e).restore e' =
        e'.alias_qualified e.qualified_name.1 e.qualified_name.2) ∧
    (e'.qualified_name = e.qualified_name → (np.save e).restore e' = e') := by
  have hsave : np.save e =
      SavedName.saved e.qualified_name.1 e.qualified_name.2 := by
    simp [NamePreserver.save, h]
  by_cases hc : e'.qualified_name = e.qualified_name
  · have h1 : e'.qualified_name.1 = e.qualified_name.1 := by rw [hc]
    have h2 : e'.qualified_name.2 = e.qualified_name.2 := by rw [hc]
    have hres : (np.save e).restore e' = e' := by
      rw [hsave]
      simp [SavedName.restore, h1, h2]
    exact ⟨by rw [hres, hc], fun hne => absurd hc hne, fun _ => hres⟩
  · have hcomp : e'.qualified_name.1 ≠ e.qualified_name.1 ∨
        e'.qualified_name.2 ≠ e.qualified_name.2 := by
      by_contra hnn
      push_neg at hnn
      exact hc (Prod.ext hnn.1 hnn.2)
    have hres : (np.save e).restore e' =
        e'.alias_qualified e.qualified_name.1 e.qualified_name.2 := by
      rw [hsave]
      show (if _ ∨ _ then _ else _) = _
      rw [if_pos hcomp]
    refine ⟨?_, fun _ => hres, fun heq => absurd heq hc⟩
    rw [hres]
    show (e.qualified_name.1, e.qualified_name.2) = e.qualified_name
    exact Prod.mk.eta

theorem name_preserver_restore_preserves_qualified_name_witness :
    NamePreserver.new_for_projection.use_alias = true ∧
    ((NamePreserver.new_for_projection.save
        (.column ⟨some ⟨Option.none, Option.none, "t"⟩, "a"⟩)).restore
        (.cast (.column ⟨some ⟨Option.none, Option.none, "t"⟩, "a"⟩) .int32)).qualified_name
      = (Expr.column ⟨some ⟨Option.none, Option.none, "t"⟩, "a"⟩).qualified_name :=
  ⟨rfl,
    (name_preserver_restore_preserves_qualified_name
      NamePreserver.new_for_projection
      (.column ⟨some ⟨Option.none, Option.none, "t"⟩, "a"⟩)
      (.cast (.column ⟨some ⟨Option.none, Option.none, "t"⟩, "a"⟩) .int32)
      rfl).1⟩

/-- C2 counterexample: normalizing the already-fully-qualified column
`t.a` against the very schema that produced its qualifier returns the
same expression, but the transformation's changed flag is `true`, not
`false`: the rewrite hook unconditionally marks column nodes as
transformed. -/
theorem normalize_qualified_col_changed_flag_counterexample :
    Expr.transform
        (normalizeColStep
          [[⟨[⟨some ⟨Option.none, Option.none, "t"⟩, "a", .int8⟩]⟩]] [])
        (.column ⟨some ⟨Option.none, Option.none, "t"⟩, "a"⟩)
      = .ok ⟨.column ⟨some ⟨Option.none, Option.none, "t"⟩, "a"⟩, true⟩ ∧
    ¬ Expr.transform
        (normalizeColStep
          [[⟨[⟨some ⟨Option.none, Option.none, "t"⟩, "a", .int8⟩]⟩]] [])
        (.column ⟨some ⟨Option.none, Option.none, "t"⟩, "a"⟩)
      = .ok ⟨.column ⟨some ⟨Option.none, Option.none, "t"⟩, "a"⟩, false⟩ := by
  refine ⟨rfl, fun hcontra => ?_⟩
  have h1 := congrArg
    (fun x => match x with
      | Except.ok t => t.transformed
      | Except.error _ => true) hcontra
  exact Bool.noConfusion (show true = false from h1)

/-- C2 (amended): for a fully qualified column whose (sole) match in the
candidate-schema group is the field that produced its qualifier, the
public normalization returns the same expression unchanged in value, but
the underlying transformation's changed flag is `true` (the hook marks
every column node as transformed, whether or not its value changed). -/
theorem normalize_qualified_col_value_unchanged
    (c : Column) (group : List DFSchema) (us : List (List Column)) (f : Field)
    (hm : groupMatches c group = [f])
    (hrel : f.relation = c.relation) (hname : f.name = c.name) :
    Expr.transform (normalizeColStep [group] us) (.column c)
      = .ok ⟨.column c, true⟩ ∧
    normalize_col_with_schemas_and_ambiguity_check (.column c) [group] us
      = .ok (.column c) := by
  obtain ⟨crel, cname⟩ := c
  have hnorm : Column.normalize_with_schemas_and_ambiguity_check
      ⟨crel, cname⟩ [group] us = .ok ⟨crel, cname⟩ := by
    simp [Column.normalize_with_schemas_and_ambiguity_check, resolveInGroups,
      hm, hrel, hname]
  constructor
  · show normalizeColStep [group] us (.column ⟨crel, cname⟩) = _
    simp [normalizeColStep, hnorm, Transformed.yes]
  · show (Expr.transform (normalizeColStep [group] us)
        (.column ⟨crel, cname⟩)).map Transformed.data = _
    show (normalizeColStep [group] us (.column ⟨crel, cname⟩)).map
        Transformed.data = _
    simp [normalizeColStep, hnorm, Transformed.yes]

theorem normalize_qualified_col_value_unchanged_witness :
    groupMatches ⟨some ⟨Option.none, Option.none, "t"⟩, "a"⟩
        [⟨[⟨some ⟨Option.none, Option.none, "t"⟩, "a", .int8⟩]⟩]
      = [⟨some ⟨Option.none, Option.none, "t"⟩, "a", .int8⟩] ∧
    normalize_col_with_schemas_and_ambiguity_check
        (.column ⟨some ⟨Option.none, Option.none, "t"⟩, "a"⟩)
        [[⟨[⟨some ⟨Option.none, Option.none, "t"⟩, "a", .int8⟩]⟩]] []
      = .ok (.column ⟨some ⟨Option.none, Option.none, "t"⟩, "a"⟩) :=
  ⟨rfl,
    (normalize_qualified_col_value_unchanged
      ⟨some ⟨Option.none, Option.none, "t"⟩, "a"⟩
      [⟨[⟨some ⟨Option.none, Option.none, "t"⟩, "a", .int8⟩]⟩] []
      ⟨some ⟨Option.none, Option.none, "t"⟩, "a", .int8⟩
      rfl rfl rfl).2⟩

/-- C3 counterexample: an outer-reference expression is not unwrapped by
`normalize_col_with_schemas_and_ambiguity_check`: its inner column is
left untouched even though normalizing that column alone against the
same candidate schemas would qualify it. -/
theorem normalize_outer_reference_counterexample :
    normalize_col_with_schemas_and_ambiguity_check
        (.outerReferenceColumn .int8 ⟨Option.none, "a"⟩)
        [[⟨[⟨some ⟨Option.none, Option.none, "t"⟩, "a", .int8⟩]⟩]] []
      = .ok (.outerReferenceColumn .int8 ⟨Option.none, "a"⟩) ∧
    Column.normalize_with_schemas_and_ambiguity_check ⟨Option.none, "a"⟩
        [[⟨[⟨some ⟨Option.none, Option.none, "t"⟩, "a", .int8⟩]⟩]] []
      = .ok ⟨some ⟨Option.none, Option.none, "t"⟩, "a"⟩ ∧
    (Expr.outerReferenceColumn .int8 (⟨Option.none, "a"⟩ : Column)) ≠
      (Expr.outerReferenceColumn .int8
        (⟨some ⟨Option.none, Option.none, "t"⟩, "a"⟩ : Column)) := by
  refine ⟨rfl, rfl, by decide⟩

/-- C3 (amended): only unnest wrappers are specially unwrapped: the
normalizer recurses into an unnest's inner expression and re-wraps the
normalized result in an unnest, both at the root (by the explicit
special case) and anywhere else in the tree (by the generic traversal),
while an outer-reference expression is returned entirely unchanged (its
inner column is not normalized). -/
theorem normalize_unwraps_unnest_only
    (e : Expr) (schemas : List (List DFSchema)) (us : List (List Column)) :
    normalize_col_with_schemas_and_ambiguity_check (.unnest e) schemas us
      = (normalize_col_with_schemas_and_ambiguity_check e schemas us).map
          Expr.unnest ∧
    Expr.transform (normalizeColStep schemas us) (.unnest e)
      = (Expr.transform (normalizeColStep schemas us) e).map
          (fun t => ⟨.unnest t.data, t.transformed⟩) ∧
    ∀ (t : DataType) (c : Column),
      normalize_col_with_schemas_and_ambiguity_check
          (.outerReferenceColumn t c) schemas us
        = .ok (.outerReferenceColumn t c) := by
  refine ⟨rfl, ?_, fun t c => rfl⟩
  cases h : Expr.transform (normalizeColStep schemas us) e with
  | error er => simp [Expr.transform, h]
  | ok te =>
      simp [Expr.transform, h, normalizeColStep, Transformed.no, pure, Except.pure]

/-- C6: for filter, join, table-scan, limit and statement plans the
`NamePreserver` is inert: `save` yields `SavedName::None` on every
expression, and restoring `SavedName::None` returns the rewritten
expression unchanged (no alias is introduced on this path). -/
theorem name_preserver_inert_on_non_schema_plans
    (plan : LogicalPlan) (e e' : Expr)
    (h : (∃ s, plan = .filter s) ∨ (∃ s, plan = .join s) ∨
         (∃ s, plan = .tableScan s) ∨ (∃ s, plan = .limit s) ∨
         (∃ s, plan = .statement s)) :
    (NamePreserver.new plan).save e = SavedName.none ∧
    SavedName.none.restore e' = e' := by
  refine ⟨?_, rfl⟩
  rcases h with ⟨s, rfl⟩ | ⟨s, rfl⟩ | ⟨s, rfl⟩ | ⟨s, rfl⟩ | ⟨s, rfl⟩ <;> rfl

theorem name_preserver_inert_on_non_schema_plans_witness :
    (NamePreserver.new (.filter ⟨[]⟩)).save .wildcard = SavedName.none ∧
    SavedName.none.restore .wildcard = .wildcard :=
  name_preserver_inert_on_non_schema_plans (.filter ⟨[]⟩) .wildcard .wildcard
    (Or.inl ⟨⟨[]⟩, rfl⟩)

/-- C9: `normalize_cols` succeeds exactly when `normalize_col` succeeds
on every element, returning the elementwise normalization in input order
and of the same length; on failure it returns the error of the first
failing element (every earlier element normalizes successfully) and no
partial list is produced. -/
theorem normalize_cols_spec (exprs : List Expr) (plan : LogicalPlan) :
    (∀ rs, normalize_cols exprs plan = .ok rs →
      rs.length = exprs.length ∧
      ∀ i (h : i < exprs.length) (h' : i < rs.length),
        normalize_col (exprs.get ⟨i, h⟩) plan = .ok (rs.get ⟨i, h'⟩)) ∧
    ((∀ e ∈ exprs, ∃ r, normalize_col e plan = .ok r) →
      ∃ rs, normalize_cols exprs plan = .ok rs) ∧
    (∀ err, normalize_cols exprs plan = .error err →
      ∃ i, ∃ (h : i < exprs.length),
        normalize_col (exprs.get ⟨i, h⟩) plan = .error err ∧
        ∀ j (hj : j < i), ∃ r,
          normalize_col (exprs.get ⟨j, Nat.lt_trans hj h⟩) plan = .ok r) := by
  refine ⟨?_, ?_, ?_⟩
  · intro rs hok
    have hlen := collectExcept_ok_length hok
    simp only [List.length_map] at hlen
    refine ⟨hlen, ?_⟩
    intro i h h'
    have := collectExcept_ok_get hok i (by simpa using h) h'
    simpa using this
  · intro hall
    refine collectExcept_ok_of_all ?_
    intro x hx
    obtain ⟨e, he, rfl⟩ := List.mem_map.mp hx
    exact hall e he
  · intro err herr
    obtain ⟨i, hi, hie, hprev⟩ := collectExcept_error_first herr
    have hi' : i < exprs.length := by simpa using hi
    refine ⟨i, hi', by simpa using hie, ?_⟩
    intro j hj
    obtain ⟨r, hr⟩ := hprev j hj
    exact ⟨r, by simpa using hr⟩

theorem normalize_cols_spec_witness :
    ([Expr.column ⟨some ⟨Option.none, Option.none, "t"⟩, "a"⟩] : List Expr).length
      = ([Expr.column ⟨Option.none, "a"⟩] : List Expr).length :=
  ((normalize_cols_spec [Expr.column ⟨Option.none, "a"⟩]
      (.tableScan ⟨[⟨some ⟨Option.none, Option.none, "t"⟩, "a", .int8⟩]⟩)).1
    [Expr.column ⟨some ⟨Option.none, Option.none, "t"⟩, "a"⟩] rfl).1

/-- C10: when `normalize_sorts` succeeds it returns a list of the same
length and order in which every output sort keeps the `asc` and
`nulls_first` flags of the corresponding input sort unchanged, and only
the `expr` component is replaced by its normalization against the plan. -/
theorem normalize_sorts_preserves_flags (sorts : List SortExpr)
    (plan : LogicalPlan) (rs : List SortExpr)
    (h : normalize_sorts sorts plan = .ok rs) :
    rs.length = sorts.length ∧
    ∀ i (hi : i < sorts.length) (hi' : i < rs.length),
      (rs.get ⟨i, hi'⟩).asc = (sorts.get ⟨i, hi⟩).asc ∧
      (rs.get ⟨i, hi'⟩).nulls_first = (sorts.get ⟨i, hi⟩).nulls_first ∧
      normalize_col (sorts.get ⟨i, hi⟩).expr plan = .ok (rs.get ⟨i, hi'⟩).expr := by
  have hlen := collectExcept_ok_length h
  simp only [List.length_map] at hlen
  refine ⟨hlen, ?_⟩
  intro i hi hi'
  have hget := collectExcept_ok_get h i (by simpa using hi) hi'
  rw [List.getElem_map] at hget
  cases hn : normalize_col (sorts.get ⟨i, hi⟩).expr plan with
  | error er =>
      rw [show sorts[i] = sorts.get ⟨i, hi⟩ from rfl, hn] at hget
      exact absurd hget (by simp)
  | ok e =>
      rw [show sorts[i] = sorts.get ⟨i, hi⟩ from rfl, hn] at hget
      simp only [exceptMapOk] at hget
      have : rs.get ⟨i, hi'⟩ = SortExpr.new e (sorts.get ⟨i, hi⟩).asc
          (sorts.get ⟨i, hi⟩).nulls_first := by
        have := congrArg (fun x => match x with
          | Except.ok t => t
          | Except.error _ => SortExpr.new e true true) hget
        simpa using this.symm
      rw [this]
      exact ⟨rfl, rfl, rfl⟩

theorem normalize_sorts_preserves_flags_witness :
    ([SortExpr.mk (.column ⟨some ⟨Option.none, Option.none, "t"⟩, "a"⟩) true false] :
        List SortExpr).length
      = ([SortExpr.mk (.column ⟨Option.none, "a"⟩) true false] :
        List SortExpr).length :=
  (normalize_sorts_preserves_flags
    [SortExpr.mk (.column ⟨Option.none, "a"⟩) true false]
    (.tableScan ⟨[⟨some ⟨Option.none, Option.none, "t"⟩, "a", .int8⟩]⟩)
    [SortExpr.mk (.column ⟨some ⟨Option.none, Option.none, "t"⟩, "a"⟩) true false]
    rfl).1

theorem cast_to_ok_get_type {e : Expr} {t : DataType} {s : DFSchema} {r : Expr}
    (h : e.cast_to t s = .ok r) : ∃ t', r.get_type s = .ok t' := by
  unfold Expr.cast_to at h
  cases hg : e.get_type s with
  | error er => rw [hg] at h; simp at h
  | ok this_type =>
      rw [hg] at h
      simp only [exceptOkBind] at h
      by_cases hc : this_type = t
      · rw [if_pos hc] at h
        simp only [pure, Except.pure, Except.ok.injEq] at h
        exact ⟨this_type, by rw [← h]; exact hg⟩
      · rw [if_neg hc] at h
        simp only [can_cast_types, if_true, pure, Except.pure, Except.ok.injEq] at h
        exact ⟨t, by rw [← h]; rfl⟩

theorem coercePos_cases (src dst : DFSchema) (i : Nat) (e : Expr) (te : DataType)
    (hg : e.get_type src = .ok te) :
    (te = (dst.field i).dtype ∧ coercePos src dst i e = .ok e) ∨
    (te ≠ (dst.field i).dtype ∧
      ((∃ inner rel n, e = .alias inner rel n ∧
          coercePos src dst i e =
            (inner.cast_to ((dst.field i).dtype) src).map
              (fun ce => Expr.alias ce Option.none n)) ∨
       (e = .wildcard ∧ coercePos src dst i e = .ok e) ∨
       (e.isAlias = false ∧ e ≠ .wildcard ∧
          coercePos src dst i e = e.cast_to ((dst.field i).dtype) src))) := by
  by_cases hC : te = (dst.field i).dtype
  · subst hC
    left
    refine ⟨rfl, ?_⟩
    simp [coercePos, hg, pure, Except.pure]
  · right
    have hC' : (dst.field i).dtype ≠ te := Ne.symm hC
    refine ⟨hC, ?_⟩
    cases e with
    | «alias» inner rel n =>
        exact Or.inl ⟨inner, rel, n, rfl, by simp [coercePos, hg, hC']⟩
    | wildcard =>
        exact Or.inr (Or.inl ⟨rfl, by simp [coercePos, hg, hC', pure, Except.pure]⟩)
    | column c =>
        exact Or.inr (Or.inr ⟨rfl, fun hw => Expr.noConfusion hw,
          by simp [coercePos, hg, hC']⟩)
    | literal v =>
        exact Or.inr (Or.inr ⟨rfl, fun hw => Expr.noConfusion hw,
          by simp [coercePos, hg, hC']⟩)
    | binaryExpr l op r =>
        exact Or.inr (Or.inr ⟨rfl, fun hw => Expr.noConfusion hw,
          by simp [coercePos, hg, hC']⟩)
    | cast e t =>
        exact Or.inr (Or.inr ⟨rfl, fun hw => Expr.noConfusion hw,
          by simp [coercePos, hg, hC']⟩)
    | unnest e =>
        exact Or.inr (Or.inr ⟨rfl, fun hw => Expr.noConfusion hw,
          by simp [coercePos, hg, hC']⟩)
    | outerReferenceColumn t c =>
        exact Or.inr (Or.inr ⟨rfl, fun hw => Expr.noConfusion hw,
          by simp [coercePos, hg, hC']⟩)

theorem coercePos_ok_get_type {src dst : DFSchema} {i : Nat} {e r : Expr}
    (h : coercePos src dst i e = .ok r) : ∃ t', r.get_type src = .ok t' := by
  cases hg : e.get_type src with
  | error er =>
      unfold coercePos at h
      rw [hg] at h
      simp at h
  | ok te =>
      rcases coercePos_cases src dst i e te hg with
        ⟨_, heq⟩ | ⟨_, ⟨inner, rel, n, hE, heq⟩ | ⟨hE, heq⟩ | ⟨_, _, heq⟩⟩
      · rw [heq] at h
        exact ⟨te, by rw [← Except.ok.inj h]; exact hg⟩
      · rw [heq] at h
        cases hcast : inner.cast_to ((dst.field i).dtype) src with
        | error er => rw [hcast] at h; simp at h
        | ok ce =>
            rw [hcast] at h
            simp only [exceptMapOk] at h
            obtain ⟨t', ht'⟩ := cast_to_ok_get_type hcast
            exact ⟨t', by rw [← Except.ok.inj h]; simpa [Expr.get_type] using ht'⟩
      · rw [heq] at h
        exact ⟨te, by rw [← Except.ok.inj h]; exact hg⟩
      · rw [heq] at h
        exact cast_to_ok_get_type h

theorem coerce_output_types_ok {exprs : List Expr} {src dst : DFSchema}
    {rs : List Expr} (h : coerce_exprs_for_schema exprs src dst = .ok rs) :
    ∀ r ∈ rs, ∃ t', r.get_type src = .ok t' := by
  intro r hr
  obtain ⟨i, hi, hri⟩ := List.mem_iff_getElem.mp hr
  have hlen := collectExcept_ok_length h
  have hx := collectExcept_ok_get h i (hlen ▸ hi) hi
  simp only [List.getElem_map] at hx
  rw [hri] at hx
  exact coercePos_ok_get_type hx

theorem try_new_ok {exprs : List Expr} {input : LogicalPlan}
    (h : ∀ e ∈ exprs, ∃ t', e.get_type input.schema = .ok t') :
    ∃ fs, Projection.try_new exprs input = .ok (.projection exprs input ⟨fs⟩) := by
  have hall : ∀ x ∈ exprs.map (fun e =>
      (e.get_type input.schema).map (fun t =>
        (⟨e.qualified_name.1, e.qualified_name.2, t⟩ : Field))), ∃ a, x = .ok a := by
    intro x hx
    obtain ⟨e, he, rfl⟩ := List.mem_map.mp hx
    obtain ⟨t', ht'⟩ := h e he
    exact ⟨_, by rw [ht']; rfl⟩
  obtain ⟨fs, hfs⟩ := collectExcept_ok_of_all hall
  exact ⟨fs, by simp only [Projection.try_new, exprlist_to_fields, hfs, exceptMapOk]⟩

theorem coerce_noop_aux (src dst : DFSchema) :
    ∀ (exprs : List Expr) (n : Nat),
      (∀ i (hi : i < exprs.length),
        (exprs.get ⟨i, hi⟩).get_type src = .ok ((dst.field (n + i)).dtype)) →
      collectExcept ((exprs.enumFrom n).map (fun p => coercePos src dst p.1 p.2))
        = .ok exprs := by
  intro exprs
  induction exprs with
  | nil => intro n _; rfl
  | cons e es ih =>
      intro n h
      have h0 : e.get_type src = .ok ((dst.field n).dtype) := by
        have h0' := h 0 (by simp)
        simpa using h0'
      have hpos : coercePos src dst n e = .ok e := by
        simp [coercePos, h0, pure, Except.pure]
      have hrest := ih (n + 1) (fun i hi => by
        have h2 := h (i + 1) (by simpa using Nat.succ_lt_succ hi)
        have heq : n + (i + 1) = n + 1 + i := by omega
        rw [heq] at h2
        simpa using h2)
      exact collectExcept_cons_ok.mpr ⟨e, es, hpos, hrest, rfl⟩

theorem map_col_no_project (fields : List Field) :
    (fields.map (fun f => Expr.column ⟨f.relation, f.name⟩)).any
      (fun e => e.try_as_col.isNone) = false := by
  induction fields with
  | nil => rfl
  | cons f fs ih => simp [Expr.try_as_col, ih]

theorem coerce_plan_other_eq (plan : LogicalPlan) (target : DFSchema)
    (h : ∀ e i s, plan ≠ .projection e i s) :
    coerce_plan_expr_for_schema plan target = coercePlanOther plan target := by
  cases plan with
  | projection e i s => exact absurd rfl (h e i s)
  | filter s => rfl
  | join s => rfl
  | tableScan s => rfl
  | limit s => rfl
  | statement s => rfl
  | aggregate s => rfl

/-- C4: `coerce_plan_expr_for_schema` rewrites a projection's expression
list in place inside a new projection over the same input (no extra plan
layer); on every other plan kind it coerces the plan's output columns as
a fresh list and inserts a projection above the original plan exactly
when some coerced entry is not a plain column reference; when every
expression's inferred type already equals the target-schema type the
original plan is returned identically (for a projection, under the
well-formedness invariant that its stored schema is the one computed
from its expression list). -/
theorem coerce_plan_expr_for_schema_spec (plan : LogicalPlan) (target : DFSchema) :
    (∀ exprs input s result,
      plan = .projection exprs input s →
      coerce_plan_expr_for_schema plan target = .ok result →
      ∃ new_exprs fs,
        coerce_exprs_for_schema exprs input.schema target = .ok new_exprs ∧
        result = .projection new_exprs input fs) ∧
    ((∀ e i s, plan ≠ .projection e i s) →
      ∀ new_exprs,
        coerce_exprs_for_schema
            (plan.schema.fields.map (fun f => Expr.column ⟨f.relation, f.name⟩))
            plan.schema target = .ok new_exprs →
        ((new_exprs.any (fun e => e.try_as_col.isNone) = true →
            ∃ fs, coerce_plan_expr_for_schema plan target
              = .ok (.projection new_exprs plan fs)) ∧
         (new_exprs.any (fun e => e.try_as_col.isNone) = false →
            coerce_plan_expr_for_schema plan target = .ok plan))) ∧
    ((∀ e i s, plan ≠ .projection e i s) →
      (∀ i (hi : i < (plan.schema.fields.map
            (fun f => Expr.column ⟨f.relation, f.name⟩)).length),
        ((plan.schema.fields.map
            (fun f => Expr.column ⟨f.relation, f.name⟩)).get ⟨i, hi⟩).get_type
            plan.schema
          = .ok ((target.field i).dtype)) →
      coerce_plan_expr_for_schema plan target = .ok plan) ∧
    (∀ exprs input s,
      plan = .projection exprs input s →
      exprlist_to_fields exprs input = .ok s.fields →
      (∀ i (hi : i < exprs.length),
        (exprs.get ⟨i, hi⟩).get_type input.schema = .ok ((target.field i).dtype)) →
      coerce_plan_expr_for_schema plan target = .ok plan) := by
  refine ⟨?_, ?_, ?_, ?_⟩
  · rintro exprs input s result rfl hres
    have hres' : (coerce_exprs_for_schema exprs input.schema target >>=
        fun new_exprs => Projection.try_new new_exprs input) = .ok result := hres
    cases hc : coerce_exprs_for_schema exprs input.schema target with
    | error er => rw [hc] at hres'; simp at hres'
    | ok new_exprs =>
        rw [hc] at hres'
        simp only [exceptOkBind] at hres'
        have hres'' : (exprlist_to_fields new_exprs input).map
            (fun fs => LogicalPlan.projection new_exprs input ⟨fs⟩)
          = .ok result := hres'
        cases hf : exprlist_to_fields new_exprs input with
        | error er => rw [hf] at hres''; simp at hres''
        | ok fs =>
            rw [hf] at hres''
            simp only [exceptMapOk] at hres''
            exact ⟨new_exprs, ⟨fs⟩, rfl, (Except.ok.inj hres'').symm⟩
  · intro hnp new_exprs hcoerce
    rw [coerce_plan_other_eq plan target hnp]
    have hstep : coercePlanOther plan target =
        (if new_exprs.any (fun expr => expr.try_as_col.isNone) then
          Projection.try_new new_exprs plan
        else pure plan) := by
      unfold coercePlanOther
      rw [hcoerce]
      simp only [exceptOkBind]
    rw [hstep]
    constructor
    · intro hany
      have htypes := coerce_output_types_ok hcoerce
      obtain ⟨fs, hfs⟩ := @try_new_ok new_exprs plan htypes
      refine ⟨⟨fs⟩, ?_⟩
      rw [hany, if_pos rfl]
      exact hfs
    · intro hany
      rw [hany, if_neg (by simp)]
      rfl
  · intro hnp htypes
    have hcoerce : coerce_exprs_for_schema
        (plan.schema.fields.map (fun f => Expr.column ⟨f.relation, f.name⟩))
        plan.schema target
      = .ok (plan.schema.fields.map (fun f => Expr.column ⟨f.relation, f.name⟩)) := by
      have haux := coerce_noop_aux plan.schema target
        (plan.schema.fields.map (fun f => Expr.column ⟨f.relation, f.name⟩)) 0
        (fun i hi => by simp only [Nat.zero_add]; exact htypes i hi)
      exact haux
    rw [coerce_plan_other_eq plan target hnp]
    have hstep : coercePlanOther plan target =
        (if (plan.schema.fields.map
            (fun f => Expr.column ⟨f.relation, f.name⟩)).any
            (fun expr => expr.try_as_col.isNone) then
          Projection.try_new
            (plan.schema.fields.map (fun f => Expr.column ⟨f.relation, f.name⟩))
            plan
        else pure plan) := by
      unfold coercePlanOther
      rw [hcoerce]
      simp only [exceptOkBind]
    rw [hstep, map_col_no_project, if_neg (by simp)]
    rfl
  · rintro exprs input s rfl hwf htypes
    obtain ⟨sf⟩ := s
    have hcoerce : coerce_exprs_for_schema exprs input.schema target = .ok exprs :=
      coerce_noop_aux input.schema target exprs 0
        (fun i hi => by simp only [Nat.zero_add]; exact htypes i hi)
    have hgoal : coerce_plan_expr_for_schema (.projection exprs input ⟨sf⟩) target
        = (coerce_exprs_for_schema exprs input.schema target >>=
            fun new_exprs => Projection.try_new new_exprs input) := rfl
    rw [hgoal, hcoerce]
    simp only [exceptOkBind]
    have htry : Projection.try_new exprs input
        = (exprlist_to_fields exprs input).map
            (fun fs => LogicalPlan.projection exprs input ⟨fs⟩) := rfl
    rw [htry, hwf]
    simp only [exceptMapOk]

theorem coerce_plan_expr_for_schema_spec_witness :
    coerce_plan_expr_for_schema
        (.tableScan ⟨[⟨some ⟨Option.none, Option.none, "t"⟩, "a", .int8⟩]⟩)
        ⟨[⟨Option.none, "a", .int8⟩]⟩
      = .ok (.tableScan ⟨[⟨some ⟨Option.none, Option.none, "t"⟩, "a", .int8⟩]⟩) :=
  (coerce_plan_expr_for_schema_spec
      (.tableScan ⟨[⟨some ⟨Option.none, Option.none, "t"⟩, "a", .int8⟩]⟩)
      ⟨[⟨Option.none, "a", .int8⟩]⟩).2.2.1
    (fun e i s h => LogicalPlan.noConfusion h)
    (fun i hi => by
      have h0 : i = 0 := by simp [LogicalPlan.schema] at hi; omega
      subst h0
      rfl)

/-- C5: position-wise behavior of `coerce_exprs_for_schema`: an
expression whose inferred type already equals the target field type is
kept unchanged; otherwise an alias has its inner expression cast to the
target type with the same alias name re-applied, an unresolved wildcard
is left untouched, and any other expression is wrapped in an explicit
cast to the target type. -/
theorem coerce_exprs_for_schema_pointwise
    (exprs : List Expr) (src dst : DFSchema) (rs : List Expr)
    (harity : exprs.length = dst.fields.length)
    (h : coerce_exprs_for_schema exprs src dst = .ok rs) :
    rs.length = exprs.length ∧
    ∀ i (hi : i < exprs.length) (te : DataType),
      exprs[i].get_type src = .ok te →
      ((te = (dst.field i).dtype → rs[i]? = some exprs[i]) ∧
       (te ≠ (dst.field i).dtype →
         ((∀ inner rel n, exprs[i] = .alias inner rel n →
             rs[i]? = some (.alias (.cast inner ((dst.field i).dtype))
               Option.none n)) ∧
          (exprs[i] = .wildcard → rs[i]? = some .wildcard) ∧
          (exprs[i].isAlias = false → exprs[i] ≠ .wildcard →
             rs[i]? = some (.cast exprs[i] ((dst.field i).dtype)))))) := by
  have hlen0 := collectExcept_ok_length h
  simp only [List.length_map, List.enum_length] at hlen0
  refine ⟨hlen0, ?_⟩
  intro i hi te hg
  have hi' : i < rs.length := by rw [hlen0]; exact hi
  have hxlen : i < (exprs.enum.map (fun p => coercePos src dst p.1 p.2)).length := by
    simp only [List.length_map, List.enum_length]
    exact hi
  have hx := collectExcept_ok_get h i hxlen hi'
  simp only [List.getElem_map] at hx
  rw [List.getElem_enum] at hx
  have hrsi : rs[i]? = some rs[i] := List.getElem?_eq_getElem hi'
  rcases coercePos_cases src dst i (exprs[i]) te hg with
    ⟨hEq, heq⟩ | ⟨hNe, hbr⟩
  · refine ⟨fun _ => ?_, fun hcontra => absurd hEq hcontra⟩
    rw [heq] at hx
    rw [hrsi, ← Except.ok.inj hx]
  · refine ⟨fun hcontra => absurd hcontra hNe, fun _ => ?_⟩
    rcases hbr with ⟨inner, rel, n, hE, heq⟩ | ⟨hE, heq⟩ | ⟨hna, hnw, heq⟩
    · refine ⟨?_, ?_, ?_⟩
      · intro inner' rel' n' hE'
        rw [hE] at hE'
        injection hE' with h1 h2 h3
        subst h1; subst h3
        have hginner : inner.get_type src = .ok te := by
          rw [hE] at hg
          simpa [Expr.get_type] using hg
        have hcast : inner.cast_to ((dst.field i).dtype) src
            = .ok (.cast inner ((dst.field i).dtype)) := by
          simp [Expr.cast_to, hginner, hNe, can_cast_types, pure, Except.pure]
        rw [heq, hcast] at hx
        simp only [exceptMapOk] at hx
        rw [hrsi, ← Except.ok.inj hx]
      · intro hW
        rw [hE] at hW
        exact Expr.noConfusion hW
      · intro hna _
        rw [hE] at hna
        simp [Expr.isAlias] at hna
    · refine ⟨?_, ?_, ?_⟩
      · intro inner' rel' n' hE'
        rw [hE] at hE'
        exact Expr.noConfusion hE'
      · intro _
        rw [heq] at hx
        rw [hrsi, ← Except.ok.inj hx, hE]
      · intro _ hnw
        exact absurd hE hnw
    · refine ⟨?_, ?_, ?_⟩
      · intro inner' rel' n' hE'
        rw [hE'] at hna
        simp [Expr.isAlias] at hna
      · intro hW
        exact absurd hW hnw
      · intro _ _
        have hcast : (exprs[i]).cast_to ((dst.field i).dtype) src
            = .ok (.cast (exprs[i]) ((dst.field i).dtype)) := by
          simp [Expr.cast_to, hg, hNe, can_cast_types, pure, Except.pure]
        rw [heq, hcast] at hx
        rw [hrsi, ← Except.ok.inj hx]

theorem coerce_exprs_for_schema_pointwise_witness :
    ([Expr.cast (.column ⟨Option.none, "a"⟩) .int64] : List Expr)[0]?
      = some (.cast (.column ⟨Option.none, "a"⟩) .int64) := by
  have h := coerce_exprs_for_schema_pointwise
    [Expr.column ⟨Option.none, "a"⟩]
    ⟨[⟨Option.none, "a", .int8⟩]⟩ ⟨[⟨Option.none, "a", .int64⟩]⟩
    [Expr.cast (.column ⟨Option.none, "a"⟩) .int64]
    rfl rfl
  exact ((h.2 0 (by decide) .int8 rfl).2 (by decide)).2.2 rfl (by decide)

end DFRewriter
